import Mathlib

/-!
Verification of the chord analyzer (src/main.rs) against its specification.

Embedding conventions:
* Rust `f64` values reaching the arithmetic below are modelled as exact
  real numbers (`ℝ`).  The single place where a NaN arises — the
  `fold(0.0/0.0, ...)` minimum in `analyze_chord` applied to an empty
  list — is modelled by `Option ℝ`, with `none` standing for NaN; the
  NaN propagation rules of each subsequent operation (`<` comparisons
  are false, casts to integers give 0) are modelled case by case.
* Rust `as i32` on a small finite float truncates toward zero; Rust
  `as usize` additionally saturates negative values to 0; Rust
  `f64::round` rounds half away from zero.  These are `rustTruncInt`,
  `Int.toNat` and `rustRoundInt` below.
* `Vec::sort`/`sort_by` is a stable sort; it is modelled by
  `List.insertionSort` (also stable) with the corresponding relation.
-/

/-- Rust `as i32` cast of a (small, finite) `f64`: truncation toward zero.
Saturation at the `i32` bounds is not modelled; no value reaching this
operation in the program can be that large. -/
noncomputable def rustTruncInt (x : ℝ) : ℤ := if 0 ≤ x then ⌊x⌋ else ⌈x⌉

/-- Rust `f64::round` (round half away from zero) of a finite float,
immediately truncated to an integer.  The result of `round` is integral,
so an `as i32` cast after it is the identity on the value. -/
noncomputable def rustRoundInt (x : ℝ) : ℤ := if 0 ≤ x then ⌊x + 1/2⌋ else ⌈x - 1/2⌉

/-! ## Windowing (src/main.rs lines 38–42, inside `get_wave`) -/

/-- One Hamming coefficient as computed in `get_wave`:
`0.54 - 0.46 * (2.0 * PI * i / samples.len()).cos()`. -/
noncomputable def hammingCoeff (n i : ℕ) : ℝ :=
  0.54 - 0.46 * Real.cos (2 * Real.pi * i / n)

/-- The vector `hamming_window` from `get_wave`. -/
noncomputable def hamming_window (n : ℕ) : List ℝ :=
  (List.range n).map (hammingCoeff n)

/-- Application of the window: `samples.iter().zip(hamming_window.iter()).map(|(x, y)| x * y)`. -/
noncomputable def apply_window (samples : List ℝ) : List ℝ :=
  (samples.zip (hamming_window samples.length)).map fun p => p.1 * p.2

/-! ## Note namer (src/main.rs lines 48–56, `get_note`) -/

/-- The cyclic pitch-class table of `get_note`. -/
def notes : List String :=
  ["A", "A#", "B", "C", "C#", "D", "D#", "E", "F", "F#", "G", "G#"]

/-- Fallback for the (unreachable, since the index is reduced mod 12)
out-of-bounds case of `notes[...]`. -/
def default_note : String := "A"

/-- `get_note` on a possibly-NaN argument (`none` = NaN).
For `some f` this is literally the source:
octave `(4.0 + (freq/440.0).log2()) as i32` and pitch class
`notes[(((4.0 + (freq/440.0).log2()) * 12.0).round() as usize) % 12]`.
For `none`, `log2` of NaN is NaN, `NaN as i32 = 0` and
`NaN.round() as usize = 0`, which the `match` branches encode. -/
noncomputable def get_noteF (freq : Option ℝ) : String :=
  let e : Option ℝ := freq.map fun f => 4 + Real.logb 2 (f / 440)
  let octave : ℤ := match e with | none => 0 | some x => rustTruncInt x
  let idx : ℕ := (match e with | none => 0 | some x => (rustRoundInt (x * 12)).toNat) % 12
  notes.getD idx default_note ++ toString octave

/-- The source function `get_note` on an ordinary (non-NaN) float. -/
noncomputable def get_note (freq : ℝ) : String := get_noteF (some freq)

/-- Modelled from the spec's words (§4.5), for comparison with `get_note`:
octave `floor(4 + log2(freq/440))`, pitch-class index
`round((4 + log2(freq/440)) * 12) mod 12` with true mathematical modulo. -/
noncomputable def noteName_spec (freq : ℝ) : String :=
  let e : ℝ := 4 + Real.logb 2 (freq / 440)
  notes.getD ((round (e * 12) % 12).toNat) default_note ++ toString ⌊e⌋

/-! ## Chord classifier (src/main.rs lines 59–98, `analyze_chord`) -/

/-- The root-selection fold `peaks.iter().fold(0.0/0.0, |m, v| v.min(m))`.
The accumulator starts as NaN (`none`); `f64::min` returns the other
operand when one operand is NaN, so the first list element replaces the
initial NaN and afterwards the ordinary minimum is taken. -/
noncomputable def chordRoot (peaks : List ℝ) : Option ℝ :=
  peaks.foldl (fun m v => some (match m with | none => v | some m0 => min v m0)) none

/-- Rust `<` between a float and a possibly-NaN float: any comparison
with NaN is false. -/
def f64lt (x : ℝ) : Option ℝ → Prop
  | none => False
  | some y => x < y

open Classical in
/-- The octave filter `peaks.iter().filter(|x| **x < root_freq * 2.0)`. -/
noncomputable def chordFiltered (peaks : List ℝ) : List ℝ :=
  peaks.filter fun x => decide (f64lt x ((chordRoot peaks).map fun r => r * 2))

/-- The interval derivation
`peaks.iter().map(|x| ((x / root_freq).log2() * 12f64).round() as i32)`.
When the root is NaN (empty input) the whole expression is NaN and
`as i32` yields 0; that branch is unreachable because the filter then
keeps nothing. -/
noncomputable def chordDistances (peaks : List ℝ) : List ℤ :=
  (chordFiltered peaks).map fun x =>
    match chordRoot peaks with
    | none => 0
    | some r => rustRoundInt (Real.logb 2 (x / r) * 12)

/-- Rust `Vec::dedup`: remove consecutive repeated elements. -/
def dedup_run : List ℤ → List ℤ
  | [] => []
  | [a] => [a]
  | a :: b :: t => if a = b then dedup_run (b :: t) else a :: dedup_run (b :: t)

/-- `distances.sort(); distances.dedup();` — stable ascending sort
followed by removal of consecutive duplicates. -/
def chordOffsetsOf (distances : List ℤ) : List ℤ :=
  dedup_run (List.insertionSort (fun a b => a ≤ b) distances)

/-- The final offset sequence `distances` handed to the map lookup. -/
noncomputable def chordOffsets (peaks : List ℝ) : List ℤ :=
  chordOffsetsOf (chordDistances peaks)

/-- The chord template table `chord_map` (insertion order irrelevant:
all ten keys are distinct). -/
def chord_map : List (List ℤ × String) :=
  [([0, 4, 7], "major"),
   ([0, 3, 7], "minor"),
   ([0, 4, 7, 10], "seventh"),
   ([0, 4, 7, 11], "major_seventh"),
   ([0, 3, 7, 10], "minor_seventh"),
   ([0, 3, 7, 11], "minor_major_seventh"),
   ([0, 4, 8], "augmented"),
   ([0, 3, 6], "diminished"),
   ([0, 3, 6, 9], "diminished_seventh"),
   ([0, 3, 6, 10], "minor_seventh_flat_five")]

/-- The `None => "".to_string()` branch of the lookup. -/
def default_quality : String := ""

/-- The source function `analyze_chord`:
`format!("{} {}", get_note(root_freq), name)`. -/
noncomputable def analyze_chord (peaks : List ℝ) : String :=
  get_noteF (chordRoot peaks) ++ " " ++
    ((chord_map.lookup (chordOffsets peaks)).getD default_quality)

/-! ## Spectrum pipeline (src/main.rs lines 126–153, inside `main`) -/

/-- `output.truncate(output.len() / 2); output.truncate(20000);`
applied to the list of FFT magnitudes. -/
def truncate_spectrum (o : List ℝ) : List ℝ :=
  (o.take (o.length / 2)).take 20000

/-- The 3-tap moving average
`output.iter().zip(output.iter().skip(1)).zip(output.iter().skip(2)).map(|((x, y), z)| (x+y+z)/3.0)`. -/
noncomputable def smooth_spectrum (o : List ℝ) : List ℝ :=
  ((o.zip (o.drop 1)).zip (o.drop 2)).map fun p => (p.1.1 + p.1.2 + p.2) / 3

open Classical in
/-- The peak detector
`output.iter().enumerate().zip(skip(1)).zip(skip(2)).filter_map(... if y > x && y > z { Some((i, *y)) } ...)`.
Note that the recorded index `i` is the position of the *left neighbour*
`x`, while the recorded magnitude is `y`. -/
noncomputable def find_peaks (o : List ℝ) : List (ℕ × ℝ) :=
  (((o.enum).zip (o.drop 1)).zip (o.drop 2)).filterMap fun p =>
    if p.1.1.2 < p.1.2 ∧ p.2 < p.1.2 then some (p.1.1.1, p.1.2) else none

/-- The ordering used by `peaks.sort_by(|a, b| b.1.partial_cmp(&a.1).unwrap())`:
descending by magnitude. -/
def peakDescRel (a b : ℕ × ℝ) : Prop := b.2 ≤ a.2

noncomputable instance : DecidableRel peakDescRel := fun _ _ => Classical.propDecidable _

instance : IsTotal (ℕ × ℝ) peakDescRel := ⟨fun a b => le_total b.2 a.2⟩

instance : IsTrans (ℕ × ℝ) peakDescRel := ⟨fun _ _ _ h1 h2 => le_trans h2 h1⟩

/-- `peaks.sort_by(...); peaks.truncate(8);` -/
noncomputable def rank_peaks (ps : List (ℕ × ℝ)) : List (ℕ × ℝ) :=
  (List.insertionSort peakDescRel ps).take 8

/-- The whole peak-extraction stage of `main`, from the full magnitude
list to the ranked peak list. -/
noncomputable def extract_peaks (o : List ℝ) : List (ℕ × ℝ) :=
  rank_peaks (find_peaks (smooth_spectrum (truncate_spectrum o)))

/-- `let main_freq = peaks.iter().map(|x| x.0 as f64 / input.len() as f64 * spec.sample_rate as f64)`.
Here `n` is `input.len()`, the original transform length. -/
noncomputable def main_freq (o : List ℝ) (n : ℕ) (rate : ℝ) : List ℝ :=
  (extract_peaks o).map fun p => (p.1 : ℝ) / n * rate

/-- A magnitude spectrum that is zero everywhere except at bin `b`:
the shape quantified over by the single-peak claim. -/
noncomputable def spikeSpec (n b : ℕ) (v : ℝ) : List ℝ :=
  (List.range n).map fun i => if i = b then v else 0

/-! ## Helper lemmas -/

lemma rustTruncInt_of_nonneg {x : ℝ} (hx : 0 ≤ x) : rustTruncInt x = ⌊x⌋ := if_pos hx

lemma rustTruncInt_of_neg {x : ℝ} (hx : x < 0) : rustTruncInt x = ⌈x⌉ :=
  if_neg (not_le.mpr hx)

lemma rustRoundInt_of_nonneg {x : ℝ} {k : ℤ} (hx : 0 ≤ x)
    (h1 : (k : ℝ) ≤ x + 1/2) (h2 : x + 1/2 < k + 1) : rustRoundInt x = k := by
  unfold rustRoundInt
  rw [if_pos hx]
  exact Int.floor_eq_iff.mpr ⟨h1, h2⟩

lemma rustRoundInt_of_neg {x : ℝ} {k : ℤ} (hx : x < 0)
    (h1 : (k : ℝ) - 1 < x - 1/2) (h2 : x - 1/2 ≤ k) : rustRoundInt x = k := by
  unfold rustRoundInt
  rw [if_neg (not_le.mpr hx)]
  exact Int.ceil_eq_iff.mpr ⟨h1, h2⟩

lemma logb24_bounds {r : ℝ} (hr : 0 < r) {m M : ℤ}
    (h1 : (2:ℝ)^m ≤ r^(24:ℕ)) (h2 : r^(24:ℕ) < (2:ℝ)^M) :
    (m:ℝ)/24 ≤ Real.logb 2 r ∧ Real.logb 2 r < (M:ℝ)/24 := by
  have hb : (1:ℝ) < 2 := one_lt_two
  have hpow : Real.logb 2 (r^(24:ℕ)) = 24 * Real.logb 2 r := by
    rw [Real.logb_pow]; norm_num
  have hpos : (0:ℝ) < r^(24:ℕ) := pow_pos hr 24
  have l1 : (m:ℝ) ≤ Real.logb 2 (r^(24:ℕ)) := by
    rw [Real.le_logb_iff_rpow_le hb hpos, Real.rpow_intCast]; exact h1
  have l2 : Real.logb 2 (r^(24:ℕ)) < (M:ℝ) := by
    rw [Real.logb_lt_iff_lt_rpow hb hpos, Real.rpow_intCast]; exact h2
  rw [hpow] at l1 l2
  constructor <;> linarith

lemma rustRound_offset {p q k : ℕ} (hq : 0 < q) (hge : (q:ℝ) ≤ p)
    (h1 : (2:ℝ)^(2*(k:ℤ)-1) ≤ ((p:ℝ)/q)^(24:ℕ))
    (h2 : ((p:ℝ)/q)^(24:ℕ) < (2:ℝ)^(2*(k:ℤ)+1)) :
    rustRoundInt (Real.logb 2 ((p:ℝ)/q) * 12) = k := by
  have hq' : (0:ℝ) < q := by exact_mod_cast hq
  have hr : (0:ℝ) < (p:ℝ)/q := div_pos (lt_of_lt_of_le hq' hge) hq'
  obtain ⟨l1, l2⟩ := logb24_bounds hr h1 h2
  have hx : 0 ≤ Real.logb 2 ((p:ℝ)/q) :=
    Real.logb_nonneg one_lt_two ((one_le_div hq').mpr hge)
  apply rustRoundInt_of_nonneg (by positivity)
  · push_cast at l1 ⊢; linarith
  · push_cast at l2 ⊢; linarith

lemma logb24_lt {r : ℝ} (hr : 0 < r) {m : ℤ} (h1 : (2:ℝ)^m < r^(24:ℕ)) :
    (m:ℝ)/24 < Real.logb 2 r := by
  have hb : (1:ℝ) < 2 := one_lt_two
  have hpos : (0:ℝ) < r^(24:ℕ) := pow_pos hr 24
  have l1 : (m:ℝ) < Real.logb 2 (r^(24:ℕ)) := by
    rw [Real.lt_logb_iff_rpow_lt hb hpos, Real.rpow_intCast]; exact h1
  rw [Real.logb_pow] at l1
  push_cast at l1
  linarith

lemma logb_2_16 : Real.logb 2 (16:ℝ) = 4 := by
  rw [show (16:ℝ) = 2^(4:ℕ) by norm_num, Real.logb_pow,
    Real.logb_self_eq_one one_lt_two]
  norm_num

lemma get_note_eval {f e : ℝ} (he : 4 + Real.logb 2 (f / 440) = e) :
    get_note f =
      notes.getD ((rustRoundInt (e * 12)).toNat % 12) default_note ++ toString (rustTruncInt e) := by
  unfold get_note get_noteF
  simp only [Option.map_some', he]

lemma exp_440 : 4 + Real.logb 2 ((440:ℝ) / 440) = 4 := by
  rw [div_self (by norm_num : (440:ℝ) ≠ 0), Real.logb_one]; ring

lemma exp_880 : 4 + Real.logb 2 ((880:ℝ) / 440) = 5 := by
  rw [show (880:ℝ)/440 = 2 by norm_num, Real.logb_self_eq_one one_lt_two]; ring

lemma exp_220 : 4 + Real.logb 2 ((220:ℝ) / 440) = 3 := by
  rw [show (220:ℝ)/440 = 2⁻¹ by norm_num, Real.logb_inv,
    Real.logb_self_eq_one one_lt_two]
  ring

lemma get_note_nat_exp {f : ℝ} {e : ℕ} (he : 4 + Real.logb 2 (f / 440) = e)
    (hmod : e * 12 % 12 = 0) :
    get_note f = "A" ++ toString (e : ℤ) := by
  rw [get_note_eval he]
  have h1 : rustRoundInt ((e:ℝ) * 12) = (e : ℤ) * 12 := by
    apply rustRoundInt_of_nonneg (by positivity) <;> push_cast <;> norm_num
  have h2 : rustTruncInt (e:ℝ) = e := by
    rw [rustTruncInt_of_nonneg (by positivity), Int.floor_natCast]
  rw [h1, h2]
  congr 1
  have : ((e:ℤ) * 12).toNat = e * 12 := by omega
  rw [this, hmod]
  rfl

lemma get_note_440 : get_note 440 = "A4" := by
  rw [get_note_nat_exp (e := 4) (by exact_mod_cast exp_440) (by norm_num)]; rfl

lemma get_note_880 : get_note 880 = "A5" := by
  rw [get_note_nat_exp (e := 5) (by exact_mod_cast exp_880) (by norm_num)]; rfl

lemma get_note_220 : get_note 220 = "A3" := by
  rw [get_note_nat_exp (e := 3) (by exact_mod_cast exp_220) (by norm_num)]; rfl

lemma logb_ge_27 {f : ℝ} (hf : 27.5 ≤ f) : 0 ≤ 4 + Real.logb 2 (f / 440) := by
  have h16 : (1:ℝ)/16 ≤ f / 440 := by
    rw [show (1:ℝ)/16 = 27.5/440 by norm_num]
    exact (div_le_div_iff_of_pos_right (by norm_num : (0:ℝ) < 440)).mpr hf
  have hlog16 : Real.logb 2 ((1:ℝ)/16) = -4 := by
    rw [one_div, Real.logb_inv, logb_2_16]
  have h := Real.logb_le_logb_of_le one_lt_two (by norm_num : (0:ℝ) < 1/16) h16
  rw [hlog16] at h
  linarith

lemma logb_26_440 : Real.logb 2 ((26:ℝ)/440) = Real.logb 2 ((52:ℝ)/55) - 4 := by
  rw [show (26:ℝ)/440 = (52/55) * (1/16) by norm_num,
    Real.logb_mul (by norm_num) (by norm_num), one_div, Real.logb_inv, logb_2_16]
  ring

lemma logb_52_55_bounds :
    -(1:ℝ)/8 < Real.logb 2 ((52:ℝ)/55) ∧ Real.logb 2 ((52:ℝ)/55) < -(1:ℝ)/24 := by
  have h1 := logb24_lt (r := (52:ℝ)/55) (by norm_num) (m := -3) (by norm_num)
  have h2 := (logb24_bounds (r := (52:ℝ)/55) (by norm_num) (m := -3) (M := -1)
    (by norm_num) (by norm_num)).2
  push_cast at h1 h2
  constructor <;> linarith

/-- C2: the claim fails on the code for frequencies below 27.5 Hz, where
the real value `4 + log2(f/440)` is negative: Rust `as i32` truncates
toward zero (not floor), and `as usize` of the negative rounded value
saturates to 0 instead of taking a true modulo.  At `f = 26` the code
yields "A0" while the spec formula yields "G#-1". -/
theorem C2_counterexample : get_note 26 ≠ noteName_spec 26 := by
  obtain ⟨hz1, hz2⟩ := logb_52_55_bounds
  have he : 4 + Real.logb 2 ((26:ℝ) / 440) = Real.logb 2 ((52:ℝ)/55) := by
    rw [logb_26_440]; ring
  have hoct : rustTruncInt (Real.logb 2 ((52:ℝ)/55)) = 0 := by
    rw [rustTruncInt_of_neg (by linarith)]
    rw [Int.ceil_eq_iff]
    constructor <;> push_cast <;> linarith
  have hidx : rustRoundInt (Real.logb 2 ((52:ℝ)/55) * 12) = -1 := by
    apply rustRoundInt_of_neg (by linarith) <;> push_cast <;> linarith
  have hspec_oct : ⌊Real.logb 2 ((52:ℝ)/55)⌋ = -1 := by
    rw [Int.floor_eq_iff]
    constructor <;> push_cast <;> linarith
  have hspec_round : round (Real.logb 2 ((52:ℝ)/55) * 12) = -1 := by
    rw [round_eq, Int.floor_eq_iff]
    constructor <;> push_cast <;> linarith
  rw [get_note_eval he]
  unfold noteName_spec
  simp only [he, hoct, hidx, hspec_oct, hspec_round]
  decide

/-- C2 (amended): the three examples hold, and the note namer agrees with
the spec formula (pitch class at index round((4 + log2(f/440))·12) mod 12,
octave floor(4 + log2(f/440))) for every frequency f ≥ 27.5 Hz, i.e.
whenever 4 + log2(f/440) is non-negative; below that the integer casts
diverge from floor/true-modulo (see the counterexample). -/
theorem C2_thm :
    get_note 440 = "A4" ∧ get_note 880 = "A5" ∧ get_note 220 = "A3" ∧
    ∀ f : ℝ, 27.5 ≤ f → get_note f = noteName_spec f := by
  refine ⟨get_note_440, get_note_880, get_note_220, fun f hf => ?_⟩
  unfold get_note get_noteF noteName_spec
  simp only [Option.map_some']
  have he0 := logb_ge_27 hf
  have h12 : 0 ≤ (4 + Real.logb 2 (f / 440)) * 12 := mul_nonneg he0 (by norm_num)
  have hround : rustRoundInt ((4 + Real.logb 2 (f / 440)) * 12)
      = round ((4 + Real.logb 2 (f / 440)) * 12) := by
    rw [round_eq, rustRoundInt, if_pos h12]
  have hnn : 0 ≤ round ((4 + Real.logb 2 (f / 440)) * 12) := by
    rw [round_eq]
    exact Int.floor_nonneg.mpr (by linarith)
  rw [hround, rustTruncInt_of_nonneg he0]
  congr 2
  omega

/-- C2 witness: the amended equivalence applied at the concrete frequency 440. -/
theorem C2_witness : (27.5:ℝ) ≤ 440 ∧ get_note 440 = noteName_spec 440 :=
  ⟨by norm_num, C2_thm.2.2.2 440 (by norm_num)⟩

/-- C6: the claimed symmetry coefficient(i) = coefficient(N-1-i) fails,
because the denominator of the cosine argument is N, not N-1: already for
N = 2 the two coefficients are 0.08 and 1.0. -/
theorem C6_counterexample : hammingCoeff 2 0 ≠ hammingCoeff 2 1 := by
  have h0 : 2 * Real.pi * ((0:ℕ):ℝ) / ((2:ℕ):ℝ) = 0 := by norm_num
  have h1 : 2 * Real.pi * ((1:ℕ):ℝ) / ((2:ℕ):ℝ) = Real.pi := by push_cast; ring
  unfold hammingCoeff
  rw [h0, h1, Real.cos_zero, Real.cos_pi]
  norm_num

/-- C6 (amended): every coefficient lies in [0.08, 1.0], and the symmetry
that actually holds is the periodic one, coefficient(i) = coefficient(N-i)
for 1 ≤ i < N (not coefficient(N-1-i)). -/
theorem C6_thm (n i : ℕ) (hi : i < n) :
    (0.08 ≤ hammingCoeff n i ∧ hammingCoeff n i ≤ 1) ∧
    (1 ≤ i → hammingCoeff n i = hammingCoeff n (n - i)) := by
  constructor
  · have hc1 := Real.neg_one_le_cos (2 * Real.pi * i / n)
    have hc2 := Real.cos_le_one (2 * Real.pi * i / n)
    unfold hammingCoeff
    constructor <;> [norm_num; skip] <;> nlinarith
  · intro h1
    have hn : (n:ℝ) ≠ 0 := Nat.cast_ne_zero.mpr (by omega)
    unfold hammingCoeff
    have hcast : ((n - i : ℕ):ℝ) = (n:ℝ) - i := by
      rw [Nat.cast_sub (le_of_lt hi)]
    rw [hcast]
    have harg : 2 * Real.pi * ((n:ℝ) - i) / n = 2 * Real.pi - 2 * Real.pi * i / n := by
      field_simp
      ring
    rw [harg, Real.cos_two_pi_sub]

/-- C7: windowing returns an equal-length sequence, maps the empty input
to the empty output, and multiplies sample i by 0.54 - 0.46·cos(2πi/N). -/
theorem C7_thm (samples : List ℝ) :
    (apply_window samples).length = samples.length ∧
    apply_window [] = [] ∧
    ∀ i, i < samples.length →
      (apply_window samples).getD i 0 =
        samples.getD i 0 *
          (0.54 - 0.46 * Real.cos (2 * Real.pi * i / samples.length)) := by
  have hlen : (apply_window samples).length = samples.length := by
    simp [apply_window, hamming_window]
  refine ⟨hlen, by simp [apply_window], fun i hi => ?_⟩
  rw [List.getD_eq_getElem?_getD, List.getD_eq_getElem?_getD,
      List.getElem?_eq_getElem (hlen ▸ hi), List.getElem?_eq_getElem hi]
  simp [apply_window, hamming_window, hammingCoeff, List.getElem_zip]

/-- C7 witness: the elementwise formula evaluated on the singleton list [5]. -/
theorem C7_witness :
    (0 < ([(5:ℝ)] : List ℝ).length) ∧
    (apply_window [(5:ℝ)]).getD 0 0 =
      ([(5:ℝ)] : List ℝ).getD 0 0 *
        (0.54 - 0.46 * Real.cos (2 * Real.pi * ((0:ℕ):ℝ) / (([(5:ℝ)] : List ℝ).length : ℝ))) :=
  ⟨by norm_num, (C7_thm [(5:ℝ)]).2.2 0 (by norm_num)⟩

/-- C8: the retained spectrum is the first half (rounded down) further cut
to at most 20000 bins, so its length is min(⌊N/2⌋, 20000); the 20000-cut
is a no-op when the half-spectrum is no longer than 20000. -/
theorem C8_thm (o : List ℝ) :
    (truncate_spectrum o).length = min (o.length / 2) 20000 ∧
    truncate_spectrum o = (o.take (o.length / 2)).take 20000 ∧
    (o.length / 2 ≤ 20000 → truncate_spectrum o = o.take (o.length / 2)) := by
  refine ⟨?_, rfl, fun h => ?_⟩
  · simp only [truncate_spectrum, List.length_take]
    omega
  · unfold truncate_spectrum
    apply List.take_of_length_le
    simp only [List.length_take]
    omega

/-- C8 witness: the truncation facts at the concrete spectrum [1,2,3,4,5]. -/
theorem C8_witness :
    (truncate_spectrum [1, 2, 3, 4, 5]).length = min (([1, 2, 3, 4, 5] : List ℝ).length / 2) 20000 ∧
    ([1, 2, 3, 4, 5] : List ℝ).length / 2 ≤ 20000 ∧
    truncate_spectrum [1, 2, 3, 4, 5] = ([1, 2, 3, 4, 5] : List ℝ).take (([1, 2, 3, 4, 5] : List ℝ).length / 2) :=
  ⟨(C8_thm [1, 2, 3, 4, 5]).1, by norm_num, (C8_thm [1, 2, 3, 4, 5]).2.2 (by norm_num)⟩

/-- C9: ranking sorts peaks by magnitude descending (stable) and keeps at
most 8, so the frequency list handed to the classifier is the image of
that magnitude-descending list and has length at most 8. -/
theorem C9_thm :
    (∀ ps : List (ℕ × ℝ), (rank_peaks ps).length ≤ 8 ∧ (rank_peaks ps).Sorted peakDescRel) ∧
    ∀ (o : List ℝ) (n : ℕ) (rate : ℝ),
      main_freq o n rate = (extract_peaks o).map (fun p => (p.1 : ℝ) / n * rate) ∧
      (main_freq o n rate).length ≤ 8 := by
  have key : ∀ ps : List (ℕ × ℝ),
      (rank_peaks ps).length ≤ 8 ∧ (rank_peaks ps).Sorted peakDescRel := by
    intro ps
    constructor
    · simp only [rank_peaks, List.length_take]
      omega
    · exact List.Pairwise.sublist (List.take_sublist 8 _)
        (List.sorted_insertionSort peakDescRel ps)
  refine ⟨key, fun o n rate => ⟨rfl, ?_⟩⟩
  have := (key (find_peaks (smooth_spectrum (truncate_spectrum o)))).1
  simpa [main_freq, extract_peaks] using this

lemma rootFold_some : ∀ (l : List ℝ) (a : ℝ),
    List.foldl (fun m v => some (match m with | none => v | some m0 => min v m0)) (some a) l
      = some (l.foldl (fun m v => min v m) a)
  | [], _ => rfl
  | x :: t, a => by
    simp only [List.foldl_cons]
    exact rootFold_some t (min x a)

lemma chordRoot_cons (a : ℝ) (l : List ℝ) :
    chordRoot (a :: l) = some (l.foldl (fun m v => min v m) a) := by
  unfold chordRoot
  rw [List.foldl_cons]
  exact rootFold_some l a

lemma foldl_min_mem : ∀ (l : List ℝ) (a : ℝ), l.foldl (fun m v => min v m) a ∈ a :: l
  | [], a => by simp
  | x :: t, a => by
    simp only [List.foldl_cons]
    have h := foldl_min_mem t (min x a)
    rcases List.mem_cons.mp h with h1 | h1
    · rcases min_choice x a with h2 | h2 <;> rw [h1, h2] <;> simp
    · simp [List.mem_cons, h1]

lemma foldl_min_le : ∀ (l : List ℝ) (a x : ℝ), x ∈ a :: l → l.foldl (fun m v => min v m) a ≤ x
  | [], a, x => by
    intro hx
    simp only [List.mem_singleton] at hx
    simp [hx]
  | y :: t, a, x => by
    intro hx
    simp only [List.foldl_cons]
    have base := foldl_min_le t (min y a)
    rcases List.mem_cons.mp hx with rfl | hx'
    · exact le_trans (base _ (List.mem_cons_self _ _)) (min_le_right _ _)
    rcases List.mem_cons.mp hx' with rfl | hxt
    · exact le_trans (base _ (List.mem_cons_self _ _)) (min_le_left _ _)
    · exact base x (List.mem_cons_of_mem _ hxt)

lemma chordRoot_spec : ∀ (peaks : List ℝ), peaks ≠ [] →
    ∃ r, chordRoot peaks = some r ∧ r ∈ peaks ∧ ∀ x ∈ peaks, r ≤ x
  | [], h => absurd rfl h
  | a :: l, _ =>
    ⟨l.foldl (fun m v => min v m) a, chordRoot_cons a l, foldl_min_mem l a,
      fun x hx => foldl_min_le l a x hx⟩

lemma mem_dedup_run : ∀ (l : List ℤ) (a : ℤ), a ∈ dedup_run l ↔ a ∈ l
  | [], a => by simp [dedup_run]
  | [b], a => by simp [dedup_run]
  | b :: c :: t, a => by
    by_cases h : b = c <;>
      simp [dedup_run, h, mem_dedup_run (c :: t), List.mem_cons]

lemma sorted_dedup_run : ∀ (l : List ℤ), l.Sorted (· ≤ ·) → (dedup_run l).Sorted (· < ·)
  | [], _ => by simp [dedup_run]
  | [b], _ => by simp [dedup_run]
  | b :: c :: t, hs => by
    have hs' : (c :: t).Sorted (· ≤ ·) := hs.of_cons
    have ih := sorted_dedup_run (c :: t) hs'
    by_cases h : b = c
    · simpa [dedup_run, h] using ih
    · have hbc : b < c := lt_of_le_of_ne (List.rel_of_sorted_cons hs c (by simp)) h
      simp only [dedup_run, if_neg h]
      refine List.sorted_cons.mpr ⟨fun x hx => ?_, ih⟩
      have hx' : x ∈ c :: t := (mem_dedup_run _ _).mp hx
      rcases List.mem_cons.mp hx' with rfl | hxt
      · exact hbc
      · exact lt_of_lt_of_le hbc (List.rel_of_sorted_cons hs' x hxt)

lemma chordOffsetsOf_props (l : List ℤ) :
    (chordOffsetsOf l).Sorted (· ≤ ·) ∧ (chordOffsetsOf l).Nodup ∧
    ∀ a : ℤ, a ∈ chordOffsetsOf l ↔ a ∈ l := by
  unfold chordOffsetsOf
  have hs : (List.insertionSort (fun a b => a ≤ b) l).Sorted (· ≤ ·) :=
    List.sorted_insertionSort _ l
  have hlt := sorted_dedup_run _ hs
  refine ⟨hlt.imp le_of_lt, List.Pairwise.imp ne_of_lt hlt, fun a => ?_⟩
  rw [mem_dedup_run]
  exact (List.perm_insertionSort _ l).mem_iff

/-- C4: for a non-empty list of positive frequencies, the classifier's root
is the minimum of the list, and the final sorted duplicate-free offset
sequence contains the root's own offset 0. -/
theorem C4_thm (peaks : List ℝ) (hne : peaks ≠ []) (hpos : ∀ x ∈ peaks, 0 < x) :
    (∃ r, chordRoot peaks = some r ∧ r ∈ peaks ∧ (∀ x ∈ peaks, r ≤ x)) ∧
    (chordOffsets peaks).Sorted (· ≤ ·) ∧ (chordOffsets peaks).Nodup ∧
    (0:ℤ) ∈ chordOffsets peaks := by
  obtain ⟨r, hr, hrmem, hrle⟩ := chordRoot_spec peaks hne
  have hprops := chordOffsetsOf_props (chordDistances peaks)
  refine ⟨⟨r, hr, hrmem, hrle⟩, hprops.1, hprops.2.1, ?_⟩
  show (0:ℤ) ∈ chordOffsetsOf (chordDistances peaks)
  rw [(hprops.2.2 0)]
  unfold chordDistances
  apply List.mem_map.mpr
  refine ⟨r, ?_, ?_⟩
  · unfold chordFiltered
    refine List.mem_filter.mpr ⟨hrmem, ?_⟩
    rw [hr]
    simp only [Option.map_some', decide_eq_true_eq, f64lt]
    have := hpos r hrmem
    linarith
  · rw [hr]
    show rustRoundInt (Real.logb 2 (r / r) * 12) = 0
    rw [div_self (ne_of_gt (hpos r hrmem)), Real.logb_one, zero_mul]
    apply rustRoundInt_of_nonneg le_rfl <;> norm_num

/-- C4 witness: the root/offset properties at the concrete list [440]. -/
theorem C4_witness :
    (∃ r, chordRoot [(440:ℝ)] = some r ∧ r ∈ [(440:ℝ)] ∧ (∀ x ∈ [(440:ℝ)], r ≤ x)) ∧
    (chordOffsets [(440:ℝ)]).Sorted (· ≤ ·) ∧ (chordOffsets [(440:ℝ)]).Nodup ∧
    (0:ℤ) ∈ chordOffsets [(440:ℝ)] :=
  C4_thm [(440:ℝ)] (by simp) (by norm_num)

/-- C5: when the offset sequence has no entry in the template table the
lookup yields the empty quality and the result is just the root's name. -/
theorem C5_thm (peaks : List ℝ) (h : chord_map.lookup (chordOffsets peaks) = none) :
    chord_map.lookup [0, 2, 7] = none ∧
    analyze_chord peaks = get_noteF (chordRoot peaks) ++ " " := by
  refine ⟨by decide, ?_⟩
  unfold analyze_chord
  rw [h]
  show _ ++ " " ++ default_quality = _ ++ " "
  rw [show default_quality = "" from rfl]
  exact String.append_empty _

/-- C10: the empty candidate list gives root NaN (here `none`) and the
result string "A0 ". -/
theorem C10_thm : chordRoot [] = none ∧ analyze_chord ([] : List ℝ) = "A0 " :=
  ⟨rfl, rfl⟩

lemma rpow_semitone_ge_one {s : ℝ} (hs : 0 ≤ s) : (1:ℝ) ≤ (2:ℝ) ^ s :=
  Real.one_le_rpow one_le_two hs

lemma rpow_semitone_lt_two {s : ℝ} (hs : s < 1) : (2:ℝ) ^ s < 2 := by
  calc (2:ℝ) ^ s < (2:ℝ) ^ (1:ℝ) := Real.rpow_lt_rpow_of_exponent_lt one_lt_two hs
  _ = 2 := Real.rpow_one 2

lemma logb_440_mul_rpow (s : ℝ) :
    Real.logb 2 ((440 * (2:ℝ) ^ s) / 440) = s := by
  rw [mul_comm, mul_div_assoc, div_self (by norm_num : (440:ℝ) ≠ 0), mul_one]
  exact Real.logb_rpow (by norm_num) (by norm_num)

lemma e_offset_zero : rustRoundInt (Real.logb 2 ((440:ℝ)/440) * 12) = 0 := by
  rw [div_self (by norm_num : (440:ℝ) ≠ 0), Real.logb_one, zero_mul]
  apply rustRoundInt_of_nonneg le_rfl <;> norm_num

lemma offsets_027 :
    chordOffsets [440, 440 * (2:ℝ) ^ ((2:ℝ)/12), 440 * (2:ℝ) ^ ((7:ℝ)/12)] = [0, 2, 7] := by
  have hb2 : (1:ℝ) ≤ (2:ℝ) ^ ((2:ℝ)/12) := rpow_semitone_ge_one (by norm_num)
  have hb7 : (1:ℝ) ≤ (2:ℝ) ^ ((7:ℝ)/12) := rpow_semitone_ge_one (by norm_num)
  have hlt2 : (2:ℝ) ^ ((2:ℝ)/12) < 2 := rpow_semitone_lt_two (by norm_num)
  have hlt7 : (2:ℝ) ^ ((7:ℝ)/12) < 2 := rpow_semitone_lt_two (by norm_num)
  have hroot : chordRoot [440, 440 * (2:ℝ) ^ ((2:ℝ)/12), 440 * (2:ℝ) ^ ((7:ℝ)/12)]
      = some 440 := by
    rw [chordRoot_cons]
    simp only [List.foldl_cons, List.foldl_nil]
    rw [show min (440 * (2:ℝ) ^ ((2:ℝ)/12)) 440 = 440 from min_eq_right (by nlinarith),
      show min (440 * (2:ℝ) ^ ((7:ℝ)/12)) 440 = 440 from min_eq_right (by nlinarith)]
  have hfil : chordFiltered [440, 440 * (2:ℝ) ^ ((2:ℝ)/12), 440 * (2:ℝ) ^ ((7:ℝ)/12)]
      = [440, 440 * (2:ℝ) ^ ((2:ℝ)/12), 440 * (2:ℝ) ^ ((7:ℝ)/12)] := by
    unfold chordFiltered
    rw [hroot]
    apply List.filter_eq_self.mpr
    intro a ha
    simp only [Option.map_some', decide_eq_true_eq, f64lt]
    simp only [List.mem_cons, List.not_mem_nil, or_false] at ha
    rcases ha with rfl | rfl | rfl <;> nlinarith
  have e2 : rustRoundInt (Real.logb 2 ((440 * (2:ℝ) ^ ((2:ℝ)/12))/440) * 12) = 2 := by
    rw [logb_440_mul_rpow, show (2:ℝ)/12*12 = 2 by ring]
    apply rustRoundInt_of_nonneg (by norm_num) <;> norm_num
  have e7 : rustRoundInt (Real.logb 2 ((440 * (2:ℝ) ^ ((7:ℝ)/12))/440) * 12) = 7 := by
    rw [logb_440_mul_rpow, show (7:ℝ)/12*12 = 7 by ring]
    apply rustRoundInt_of_nonneg (by norm_num) <;> norm_num
  have hdist : chordDistances [440, 440 * (2:ℝ) ^ ((2:ℝ)/12), 440 * (2:ℝ) ^ ((7:ℝ)/12)]
      = [0, 2, 7] := by
    unfold chordDistances
    rw [hfil, hroot]
    show [rustRoundInt (Real.logb 2 ((440:ℝ)/440) * 12),
          rustRoundInt (Real.logb 2 ((440 * (2:ℝ) ^ ((2:ℝ)/12))/440) * 12),
          rustRoundInt (Real.logb 2 ((440 * (2:ℝ) ^ ((7:ℝ)/12))/440) * 12)] = [0, 2, 7]
    rw [e_offset_zero, e2, e7]
  show chordOffsetsOf _ = _
  rw [hdist]
  decide

/-- C5 witness: a concrete A-major-style list with an added major second in
place of the third, yielding offsets {0,2,7}, which is not in the table. -/
theorem C5_witness :
    chord_map.lookup (chordOffsets [440, 440 * (2:ℝ) ^ ((2:ℝ)/12), 440 * (2:ℝ) ^ ((7:ℝ)/12)]) = none ∧
    analyze_chord [440, 440 * (2:ℝ) ^ ((2:ℝ)/12), 440 * (2:ℝ) ^ ((7:ℝ)/12)] =
      get_noteF (chordRoot [440, 440 * (2:ℝ) ^ ((2:ℝ)/12), 440 * (2:ℝ) ^ ((7:ℝ)/12)]) ++ " " := by
  have h : chord_map.lookup
      (chordOffsets [440, 440 * (2:ℝ) ^ ((2:ℝ)/12), 440 * (2:ℝ) ^ ((7:ℝ)/12)]) = none := by
    rw [offsets_027]
    decide
  exact ⟨h, (C5_thm _ h).2⟩

lemma off_554 : rustRoundInt (Real.logb 2 ((554.37:ℝ)/440) * 12) = 4 := by
  rw [show (554.37:ℝ)/440 = (55437:ℝ)/44000 by norm_num]
  exact_mod_cast rustRound_offset (p := 55437) (q := 44000) (k := 4)
    (by norm_num) (by norm_num) (by norm_num) (by norm_num)

lemma off_659 : rustRoundInt (Real.logb 2 ((659.25:ℝ)/440) * 12) = 7 := by
  rw [show (659.25:ℝ)/440 = (65925:ℝ)/44000 by norm_num]
  exact_mod_cast rustRound_offset (p := 65925) (q := 44000) (k := 7)
    (by norm_num) (by norm_num) (by norm_num) (by norm_num)

/-- C3: on the candidate list {440, 880, 554.37, 659.25} the octave filter
discards 880, the derived offsets are {0, 4, 7}, and the classifier
returns "A4 major". -/
theorem C3_thm :
    chordFiltered [440, 880, 554.37, 659.25] = [440, 554.37, 659.25] ∧
    chordOffsets [440, 880, 554.37, 659.25] = [0, 4, 7] ∧
    analyze_chord [440, 880, 554.37, 659.25] = "A4 major" := by
  have hroot : chordRoot [(440:ℝ), 880, 554.37, 659.25] = some 440 := by
    rw [chordRoot_cons]
    simp only [List.foldl_cons, List.foldl_nil]
    rw [show min (880:ℝ) 440 = 440 from min_eq_right (by norm_num),
      show min (554.37:ℝ) 440 = 440 from min_eq_right (by norm_num),
      show min (659.25:ℝ) 440 = 440 from min_eq_right (by norm_num)]
  have hfil : chordFiltered [(440:ℝ), 880, 554.37, 659.25] = [440, 554.37, 659.25] := by
    unfold chordFiltered
    rw [hroot]
    simp only [Option.map_some', List.filter_cons, List.filter_nil,
      decide_eq_true_eq, f64lt]
    norm_num
  have hdist : chordDistances [(440:ℝ), 880, 554.37, 659.25] = [0, 4, 7] := by
    unfold chordDistances
    rw [hfil, hroot]
    show [rustRoundInt (Real.logb 2 ((440:ℝ)/440) * 12),
          rustRoundInt (Real.logb 2 ((554.37:ℝ)/440) * 12),
          rustRoundInt (Real.logb 2 ((659.25:ℝ)/440) * 12)] = [0, 4, 7]
    rw [e_offset_zero, off_554, off_659]
  have hoff : chordOffsets [(440:ℝ), 880, 554.37, 659.25] = [0, 4, 7] := by
    show chordOffsetsOf _ = _
    rw [hdist]
    decide
  refine ⟨hfil, hoff, ?_⟩
  unfold analyze_chord
  rw [hroot, hoff]
  show get_note 440 ++ " " ++ _ = _
  rw [get_note_440]
  decide

lemma getD_of_lt (l : List ℝ) (j : ℕ) (h : j < l.length) : l.getD j 0 = l[j] := by
  rw [List.getD_eq_getElem?_getD, List.getElem?_eq_getElem h, Option.getD_some]

lemma spikeSpec_length (n b : ℕ) (v : ℝ) : (spikeSpec n b v).length = n := by
  simp [spikeSpec]

lemma spike_trunc (n b : ℕ) (v : ℝ) :
    truncate_spectrum (spikeSpec n b v) = spikeSpec (min (n/2) 20000) b v := by
  unfold truncate_spectrum spikeSpec
  rw [List.take_take]
  simp only [List.length_map, List.length_range]
  rw [← List.map_take, List.take_range]
  have : min (min 20000 (n / 2)) n = min (n / 2) 20000 := by omega
  rw [this]

lemma spikeSpec_getD {n b : ℕ} {v : ℝ} {i : ℕ} (h : i < n) :
    (spikeSpec n b v).getD i 0 = if i = b then v else 0 := by
  rw [getD_of_lt _ _ (by simpa [spikeSpec_length] using h)]
  simp [spikeSpec]

lemma smooth_length (o : List ℝ) : (smooth_spectrum o).length = o.length - 2 := by
  simp only [smooth_spectrum, List.length_map, List.length_zip, List.length_drop]
  omega

lemma smooth_getD (o : List ℝ) (j : ℕ) (h : j + 2 < o.length) :
    (smooth_spectrum o).getD j 0 =
      (o.getD j 0 + o.getD (1 + j) 0 + o.getD (2 + j) 0) / 3 := by
  have hl : j < (smooth_spectrum o).length := by rw [smooth_length]; omega
  rw [getD_of_lt _ _ hl]
  unfold smooth_spectrum
  simp only [List.getElem_map, List.getElem_zip, List.getElem_drop]
  rw [getD_of_lt _ _ (by omega), getD_of_lt _ _ (by omega), getD_of_lt _ _ (by omega)]

lemma find_peaks_eq_nil (s : List ℝ)
    (h : ∀ j, j + 2 < s.length →
      ¬(s.getD j 0 < s.getD (1 + j) 0 ∧ s.getD (2 + j) 0 < s.getD (1 + j) 0)) :
    find_peaks s = [] := by
  unfold find_peaks
  rw [List.filterMap_eq_nil_iff]
  intro p hp
  obtain ⟨j, hj, hpe⟩ := List.mem_iff_getElem.mp hp
  have hlen : j + 2 < s.length := by
    simp only [List.length_zip, List.enum_length, List.length_drop] at hj
    omega
  simp only [List.getElem_zip, List.getElem_enum, List.getElem_drop] at hpe
  rw [if_neg]
  rw [← hpe]
  have hne := h j hlen
  rw [getD_of_lt _ _ (by omega), getD_of_lt _ _ (by omega), getD_of_lt _ _ (by omega)] at hne
  exact hne

lemma spike_no_peaks (n b : ℕ) (v : ℝ) (hv : 0 < v) :
    find_peaks (smooth_spectrum (spikeSpec n b v)) = [] := by
  apply find_peaks_eq_nil
  intro j hj
  rw [smooth_length, spikeSpec_length] at hj
  rw [smooth_getD _ _ (by rw [spikeSpec_length]; omega),
      smooth_getD _ _ (by rw [spikeSpec_length]; omega),
      smooth_getD _ _ (by rw [spikeSpec_length]; omega)]
  rw [spikeSpec_getD (show j < n by omega),
      spikeSpec_getD (show 1 + j < n by omega),
      spikeSpec_getD (show 2 + j < n by omega),
      spikeSpec_getD (show 1 + (1 + j) < n by omega),
      spikeSpec_getD (show 2 + (1 + j) < n by omega),
      spikeSpec_getD (show 1 + (2 + j) < n by omega),
      spikeSpec_getD (show 2 + (2 + j) < n by omega)]
  simp only [show 1 + (1 + j) = 2 + j from by omega, show 2 + (1 + j) = 3 + j from by omega,
    show 1 + (2 + j) = 3 + j from by omega, show 2 + (2 + j) = 4 + j from by omega]
  rintro ⟨h1, h2⟩
  split_ifs at h1 h2 <;> first | omega | linarith

lemma find_peaks_mem (s : List ℝ) (p : ℕ × ℝ) (hp : p ∈ find_peaks s) :
    p.1 + 2 < s.length ∧ p.2 = s.getD (1 + p.1) 0 ∧
    s.getD p.1 0 < p.2 ∧ s.getD (2 + p.1) 0 < p.2 := by
  unfold find_peaks at hp
  rw [List.mem_filterMap] at hp
  obtain ⟨a, ha, hfa⟩ := hp
  obtain ⟨j, hj, hae⟩ := List.mem_iff_getElem.mp ha
  have hlen : j + 2 < s.length := by
    simp only [List.length_zip, List.enum_length, List.length_drop] at hj
    omega
  simp only [List.getElem_zip, List.getElem_enum, List.getElem_drop] at hae
  subst hae
  dsimp only at hfa
  split at hfa
  · rename_i hc
    have hpe : p = (j, s[1 + j]) := (Option.some_inj.mp hfa).symm
    subst hpe
    dsimp only
    refine ⟨by omega, ?_, ?_, ?_⟩
    · rw [getD_of_lt _ _ (by omega)]
    · rw [getD_of_lt _ _ (by omega)]
      exact hc.1
    · rw [getD_of_lt _ _ (by omega)]
      exact hc.2
  · exact absurd hfa (by simp)

/-- C1 (amended): on a spectrum that is zero except at a single bin the
pipeline finds NO peaks at all: the 3-tap smoothing spreads the spike
into a plateau of three equal bins, and the strictly-greater-than-both-
neighbours test rejects every point of a plateau; consequently the
frequency list is empty as well.  Moreover, for any detected peak on any
smoothed spectrum, the pair recorded by the detector carries the value of
smoothed position i+1 (original bin i+2) under the index i that the
frequency map later divides by N — the reported frequency is therefore
(original bin - 2)/N·sampleRate, not the original bin over N. -/
theorem C1_thm (n b : ℕ) (v rate : ℝ) (hv : 0 < v) :
    (extract_peaks (spikeSpec n b v) = [] ∧ main_freq (spikeSpec n b v) n rate = []) ∧
    ∀ (s : List ℝ) (p : ℕ × ℝ), p ∈ find_peaks s →
      p.2 = s.getD (1 + p.1) 0 ∧ s.getD p.1 0 < p.2 ∧ s.getD (2 + p.1) 0 < p.2 := by
  have h1 : find_peaks (smooth_spectrum (truncate_spectrum (spikeSpec n b v))) = [] := by
    rw [spike_trunc]
    exact spike_no_peaks _ _ _ hv
  have h2 : extract_peaks (spikeSpec n b v) = [] := by
    unfold extract_peaks rank_peaks
    rw [h1]
    rfl
  refine ⟨⟨h2, by unfold main_freq; rw [h2]; rfl⟩, fun s p hp => ?_⟩
  exact (find_peaks_mem s p hp).2

/-- C1 witness: the amended statement applied at the concrete spike
spectrum of length 40 with its only non-zero magnitude 3 at bin 6, and
the index-shift fact at the one peak of the smoothed spectrum [0, 1, 0]. -/
theorem C1_witness :
    ((0:ℝ) < 3 ∧ extract_peaks (spikeSpec 40 6 3) = [] ∧ main_freq (spikeSpec 40 6 3) 40 2 = []) ∧
    ((0, 1) ∈ find_peaks [0, 1, 0] ∧
      (1:ℝ) = List.getD [(0:ℝ), 1, 0] (1 + 0) 0 ∧
      List.getD [(0:ℝ), 1, 0] 0 0 < 1 ∧ List.getD [(0:ℝ), 1, 0] (2 + 0) 0 < 1) := by
  have hmem : ((0:ℕ), (1:ℝ)) ∈ find_peaks [0, 1, 0] := by
    norm_num [find_peaks, List.enum, List.enumFrom, List.zip, List.zipWith, List.filterMap]
  have h := C1_thm 40 6 3 2 (by norm_num)
  exact ⟨⟨by norm_num, h.1⟩, hmem, h.2 [0, 1, 0] (0, 1) hmem⟩

/-- C1 counterexample: a transform of length 20 whose magnitude spectrum is
zero except at bin 5 (value 9) — a single strict local maximum well away
from the boundary of the retained half — produces NO peaks, not exactly
one peak, so no frequency at all is reported for bin 5. -/
theorem C1_counterexample :
    spikeSpec 20 5 9 = [0, 0, 0, 0, 0, 9, 0, 0, 0, 0, 0, 0, 0, 0, 0, 0, 0, 0, 0, 0] ∧
    extract_peaks (spikeSpec 20 5 9) = [] ∧
    (main_freq (spikeSpec 20 5 9) 20 44100).length = 0 := by
  have h1 : find_peaks (smooth_spectrum (truncate_spectrum (spikeSpec 20 5 9))) = [] := by
    rw [spike_trunc]
    exact spike_no_peaks _ _ _ (by norm_num)
  have h2 : extract_peaks (spikeSpec 20 5 9) = [] := by
    unfold extract_peaks rank_peaks
    rw [h1]
    rfl
  refine ⟨?_, h2, by unfold main_freq; rw [h2]; rfl⟩
  simp [spikeSpec, List.range_succ]

/-- C6 witness: bounds and periodic symmetry at N = 2, i = 1. -/
theorem C6_witness :
    (0.08 ≤ hammingCoeff 2 1 ∧ hammingCoeff 2 1 ≤ 1) ∧
    hammingCoeff 2 1 = hammingCoeff 2 (2 - 1) :=
  ⟨(C6_thm 2 1 (by norm_num)).1, (C6_thm 2 1 (by norm_num)).2 (by norm_num)⟩
